import Mathlib

/-!
Verification of the image-viewer core (src/main.rs): the directory scanner
and the `ImageViewer` navigator (`load_image`, `filename`), embedded
shallowly.  Paths are modelled as lists of components; the external image
decoder is an oracle `FsPath → Option Img`.
-/

/-- A file-system path, modelled as its list of components.
The last component is the file name. -/
abbrev FsPath := List String

/-- `FsPath::file_name`: the final component, `none` for an empty path. -/
def fileName (p : FsPath) : Option String := p.getLast?

/-- `FsPath::parent`: drop the final component; `none` for an empty path. -/
def parent (p : FsPath) : Option FsPath :=
  if p = [] then none else some p.dropLast

/-- `FsPath::extension` on a file name: the portion after the last `.`,
`none` when there is no `.` or nothing stands before the last `.`
(hidden files such as `.gitignore`). -/
def fileExtension (name : String) : Option String :=
  go name.data.reverse []
where
  go : List Char → List Char → Option String
    | [], _ => none
    | c :: rest, acc =>
      if c = '.' then (if rest = [] then none else some ⟨acc⟩)
      else go rest (c :: acc)

/-- `FsPath::extension`: extension of the final component. -/
def pathExtension (p : FsPath) : Option String :=
  (fileName p).bind fileExtension

/-- `str::eq_ignore_ascii_case`: equality after ASCII-lowercasing
both sides (`Char.toLower` lowers exactly the ASCII uppercase letters). -/
def eqIgnoreAsciiCase (a b : String) : Bool :=
  a.data.map Char.toLower == b.data.map Char.toLower

/-- The extension filter of `main`'s `read_dir` loop: keep a path iff its
extension ASCII-case-insensitively equals `png`, `jpg` or `jpeg`. -/
def isImagePath (p : FsPath) : Bool :=
  match pathExtension p with
  | some e =>
      eqIgnoreAsciiCase e "png" || eqIgnoreAsciiCase e "jpg" ||
        eqIgnoreAsciiCase e "jpeg"
  | none => false

/-- The scanner: `read_dir(...).filter_map(extension filter).collect()`,
keeping directory-iteration order. -/
def scanImages (entries : List FsPath) : List FsPath :=
  entries.filter isImagePath

/-- `Iterator::position`: index of the first element satisfying the
predicate, `none` if there is none. -/
def position (pr : α → Bool) : List α → Option Nat
  | [] => none
  | a :: l => if pr a then some 0 else (position pr l).map (· + 1)

/-- The navigator state: the scanned image set and the current index. -/
structure ImageViewer where
  images : List FsPath
  current_index : Nat
deriving Repr, DecidableEq

/-- `ImageViewer::new`. -/
def ImageViewer.new (images : List FsPath) (current_index : Nat) : ImageViewer :=
  { images := images, current_index := current_index }

/-- The index update of `load_image`'s `match direction` block:
`"previous"` wraps `0` to `len - 1`, `"next"` is `(i + 1) % len`,
anything else leaves the index unchanged. -/
def nextIndex (v : ImageViewer) (direction : String) : Nat :=
  if direction = "previous" then
    if v.current_index = 0 then v.images.length - 1 else v.current_index - 1
  else if direction = "next" then
    (v.current_index + 1) % v.images.length
  else
    v.current_index

/-- `ImageViewer::load_image`, with the external decoder
(`image::open(...).ok()` and the buffer conversion) abstracted as an
oracle `decode`.  Returns the updated state together with the optional
decoded image.  The out-of-range indexing `self.images[i]` (a Rust panic,
unreachable while the index invariant holds) is modelled as `none`. -/
def load_image {Img : Type} (decode : FsPath → Option Img)
    (v : ImageViewer) (direction : String) : ImageViewer × Option Img :=
  if v.images.isEmpty then (v, none)
  else
    let v' : ImageViewer := { v with current_index := nextIndex v direction }
    match v'.images.get? v'.current_index with
    | none => (v', none)
    | some image_path => (v', decode image_path)

/-- `ImageViewer::filename`: the file name of the entry at the current
index, or `""` when the index is out of range or the path has no final
component. -/
def filename (v : ImageViewer) : String :=
  ((v.images.get? v.current_index).bind fileName).getD ""

/-- Running a sequence of direction commands through `load_image`,
keeping only the state. -/
def runSeq {Img : Type} (decode : FsPath → Option Img)
    (v : ImageViewer) : List String → ImageViewer
  | [] => v
  | d :: ds => runSeq decode (load_image decode v d).1 ds

/-- The setup in `main`: pick the scan directory (the path itself if a
directory, else its parent, defaulting to `.`), scan it, and resolve the
initial index (`position(...).unwrap_or(0)` for a file argument, `0`
otherwise).  The file system is abstracted as `isDir` and `readDir`. -/
def scanSetup (isDir : FsPath → Bool) (readDir : FsPath → List FsPath)
    (path : FsPath) : List FsPath × Nat :=
  let pd : Option FsPath × FsPath :=
    if isDir path then (none, path)
    else (some path, (parent path).getD ["."])
  let images := scanImages (readDir pd.2)
  let image_index :=
    match pd.1 with
    | some image_path => (position (fun p => p == image_path) images).getD 0
    | none => 0
  (images, image_index)

/-! ### Helper lemmas -/

theorem isEmpty_false_of_ne_nil {v : ImageViewer} (h : v.images ≠ []) :
    v.images.isEmpty = false := by
  simp [List.isEmpty_iff, h]

/-- The state component of `load_image` never depends on the decoder. -/
theorem load_image_fst {Img : Type} (decode : FsPath → Option Img)
    (v : ImageViewer) (direction : String) :
    (load_image decode v direction).1 =
      if v.images.isEmpty then v
      else { v with current_index := nextIndex v direction } := by
  unfold load_image
  split
  · rfl
  · dsimp only
    split <;> rfl

theorem nextIndex_prev (v : ImageViewer) :
    nextIndex v "previous" =
      if v.current_index = 0 then v.images.length - 1 else v.current_index - 1 := rfl

theorem nextIndex_next (v : ImageViewer) :
    nextIndex v "next" = (v.current_index + 1) % v.images.length := rfl

theorem nextIndex_lt (v : ImageViewer) (direction : String)
    (h1 : v.images ≠ []) (h2 : v.current_index < v.images.length) :
    nextIndex v direction < v.images.length := by
  have hlen : 0 < v.images.length := List.length_pos.mpr h1
  unfold nextIndex
  split
  · split <;> omega
  · split
    · exact Nat.mod_lt _ hlen
    · exact h2

/-! ### Claims -/

/-- C1: for a non-empty image set and a valid index, `load_image` with
`"previous"` wraps `0` to `len - 1` and otherwise decrements, and with
`"next"` sets the index to `(i + 1) % len`; the update holds for every
decoder, hence regardless of whether the decode succeeds. -/
theorem load_image_index_update {Img : Type} (decode : FsPath → Option Img)
    (v : ImageViewer) (h1 : v.images ≠ []) (h2 : v.current_index < v.images.length) :
    (load_image decode v "previous").1.current_index =
      (if v.current_index = 0 then v.images.length - 1 else v.current_index - 1) ∧
    (load_image decode v "next").1.current_index =
      (v.current_index + 1) % v.images.length := by
  rw [load_image_fst, load_image_fst, isEmpty_false_of_ne_nil h1]
  exact ⟨nextIndex_prev v, nextIndex_next v⟩

theorem load_image_index_update_witness :
    (load_image (fun _ => (some 0 : Option Nat))
        (ImageViewer.mk [["a.png"], ["b.png"]] 1) "previous").1.current_index =
      (if (1 : Nat) = 0 then ([["a.png"], ["b.png"]] : List FsPath).length - 1
        else 1 - 1) ∧
    (load_image (fun _ => (some 0 : Option Nat))
        (ImageViewer.mk [["a.png"], ["b.png"]] 1) "next").1.current_index =
      (1 + 1) % ([["a.png"], ["b.png"]] : List FsPath).length :=
  load_image_index_update (fun _ => (some 0 : Option Nat))
    (ImageViewer.mk [["a.png"], ["b.png"]] 1) (by decide) (by decide)

/-- C2: the index invariant is preserved — from any state with a non-empty
image set and a valid index, `load_image` with any direction string leaves
a non-empty image set and a valid index. -/
theorem load_image_preserves_invariant {Img : Type} (decode : FsPath → Option Img)
    (v : ImageViewer) (direction : String)
    (h1 : v.images ≠ []) (h2 : v.current_index < v.images.length) :
    (load_image decode v direction).1.images ≠ [] ∧
    (load_image decode v direction).1.current_index <
      (load_image decode v direction).1.images.length := by
  rw [load_image_fst, isEmpty_false_of_ne_nil h1]
  exact ⟨h1, nextIndex_lt v direction h1 h2⟩

theorem load_image_preserves_invariant_witness :
    (load_image (fun _ => (some 0 : Option Nat))
        (ImageViewer.mk [["a.png"], ["b.png"]] 1) "whatever").1.images ≠ [] ∧
    (load_image (fun _ => (some 0 : Option Nat))
        (ImageViewer.mk [["a.png"], ["b.png"]] 1) "whatever").1.current_index <
      (load_image (fun _ => (some 0 : Option Nat))
        (ImageViewer.mk [["a.png"], ["b.png"]] 1) "whatever").1.images.length :=
  load_image_preserves_invariant (fun _ => (some 0 : Option Nat))
    (ImageViewer.mk [["a.png"], ["b.png"]] 1) "whatever" (by decide) (by decide)

/-- C9: `load_image` mutates at most `current_index` — the image set is
identical before and after the call, for every decoder, state and
direction string. -/
theorem load_image_images_frame {Img : Type} (decode : FsPath → Option Img)
    (v : ImageViewer) (direction : String) :
    (load_image decode v direction).1.images = v.images := by
  rw [load_image_fst]
  split <;> rfl

/-- C3: on an empty image set, `load_image` returns `none` and leaves the
state unchanged for every direction string and every decoder (so no decode
is ever consulted), and any sequence of commands keeps the state fixed. -/
theorem load_image_empty {Img : Type} (decode : FsPath → Option Img)
    (v : ImageViewer) (h : v.images = []) :
    (∀ direction, load_image decode v direction = (v, none)) ∧
    (∀ dirs, runSeq decode v dirs = v) := by
  have hstep : ∀ direction, load_image decode v direction = (v, none) := by
    intro direction
    unfold load_image
    simp [h]
  refine ⟨hstep, ?_⟩
  intro dirs
  induction dirs with
  | nil => rfl
  | cons d ds ih =>
      rw [runSeq, hstep d]
      exact ih

theorem load_image_empty_witness :
    (∀ direction, load_image (fun _ => (some 0 : Option Nat))
        (ImageViewer.mk [] 0) direction = (ImageViewer.mk [] 0, none)) ∧
    (∀ dirs, runSeq (fun _ => (some 0 : Option Nat))
        (ImageViewer.mk [] 0) dirs = ImageViewer.mk [] 0) :=
  load_image_empty (fun _ => (some 0 : Option Nat)) (ImageViewer.mk [] 0) rfl

/-- C4: a failed decode is not rolled back — the state after `load_image`
is the same for every pair of decoders (in particular, failed equals
successful); a decoder that always fails yields `none`; and from the
post-call state a subsequent `"next"` moves to a different index (never
re-attempting the entry that just failed) whenever the set has at least
two entries. -/
theorem load_image_fst_ne {Img : Type} (decode : FsPath → Option Img)
    (v : ImageViewer) (direction : String) (h1 : v.images ≠ []) :
    (load_image decode v direction).1 =
      { v with current_index := nextIndex v direction } := by
  rw [load_image_fst, isEmpty_false_of_ne_nil h1]
  rfl

theorem load_image_failure_skip {Img : Type} (decodeF decodeS : FsPath → Option Img)
    (v : ImageViewer) (direction : String)
    (h1 : v.images ≠ []) (h2 : v.current_index < v.images.length) :
    (load_image decodeF v direction).1 = (load_image decodeS v direction).1 ∧
    ((∀ p, decodeF p = none) → (load_image decodeF v direction).2 = none) ∧
    (2 ≤ v.images.length →
      nextIndex (load_image decodeF v direction).1 "next" ≠
        (load_image decodeF v direction).1.current_index) := by
  refine ⟨by rw [load_image_fst, load_image_fst], ?_, ?_⟩
  · intro hfail
    unfold load_image
    split
    · rfl
    · dsimp only
      split
      · rfl
      · exact hfail _
  · intro hlen
    rw [load_image_fst_ne decodeF v direction h1, nextIndex_next]
    show (nextIndex v direction + 1) % v.images.length ≠ nextIndex v direction
    have hi : nextIndex v direction < v.images.length := nextIndex_lt v direction h1 h2
    rcases Nat.lt_or_ge (nextIndex v direction + 1) v.images.length with hc | hc
    · rw [Nat.mod_eq_of_lt hc]
      omega
    · have hc2 : nextIndex v direction + 1 = v.images.length := by omega
      rw [hc2, Nat.mod_self]
      omega

theorem load_image_failure_skip_witness :
    (load_image (fun _ => (none : Option Nat))
        (ImageViewer.mk [["a.png"], ["b.png"]] 0) "next").1 =
      (load_image (fun _ => (some 7 : Option Nat))
        (ImageViewer.mk [["a.png"], ["b.png"]] 0) "next").1 ∧
    ((∀ p : FsPath, (fun _ : FsPath => (none : Option Nat)) p = none) →
      (load_image (fun _ => (none : Option Nat))
        (ImageViewer.mk [["a.png"], ["b.png"]] 0) "next").2 = none) ∧
    (2 ≤ ([["a.png"], ["b.png"]] : List FsPath).length →
      nextIndex (load_image (fun _ => (none : Option Nat))
        (ImageViewer.mk [["a.png"], ["b.png"]] 0) "next").1 "next" ≠
      (load_image (fun _ => (none : Option Nat))
        (ImageViewer.mk [["a.png"], ["b.png"]] 0) "next").1.current_index) :=
  load_image_failure_skip (fun _ => (none : Option Nat)) (fun _ => (some 7 : Option Nat))
    (ImageViewer.mk [["a.png"], ["b.png"]] 0) "next" (by decide) (by decide)

theorem runSeq_replicate_next {Img : Type} (decode : FsPath → Option Img) :
    ∀ (k : Nat) (v : ImageViewer), v.images ≠ [] → v.current_index < v.images.length →
      runSeq decode v (List.replicate k "next") =
        { v with current_index := (v.current_index + k) % v.images.length } := by
  intro k
  induction k with
  | zero =>
      intro v h1 h2
      rw [List.replicate, runSeq, Nat.add_zero, Nat.mod_eq_of_lt h2]
  | succ k ih =>
      intro v h1 h2
      rw [List.replicate, runSeq, load_image_fst_ne decode v "next" h1]
      have hlen : 0 < v.images.length := List.length_pos.mpr h1
      have step := ih { v with current_index := (v.current_index + 1) % v.images.length }
        h1 (Nat.mod_lt _ hlen)
      rw [nextIndex_next]
      rw [step]
      have harith : ((v.current_index + 1) % v.images.length + k) % v.images.length =
          (v.current_index + (k + 1)) % v.images.length := by
        rw [Nat.mod_add_mod]
        ring_nf
      rw [harith]

/-- C5: from any valid state over a non-empty image set of length `N`,
issuing `"next"` `N` times through `load_image` returns the state (and in
particular the index) to its starting value. -/
theorem next_replicate_length_identity {Img : Type} (decode : FsPath → Option Img)
    (v : ImageViewer) (h1 : v.images ≠ []) (h2 : v.current_index < v.images.length) :
    runSeq decode v (List.replicate v.images.length "next") = v := by
  rw [runSeq_replicate_next decode v.images.length v h1 h2,
    Nat.add_mod_right, Nat.mod_eq_of_lt h2]

theorem next_replicate_length_identity_witness :
    runSeq (fun _ => (some 0 : Option Nat))
      (ImageViewer.mk [["a.png"], ["b.png"], ["c.png"]] 1)
      (List.replicate ([["a.png"], ["b.png"], ["c.png"]] : List FsPath).length "next") =
      ImageViewer.mk [["a.png"], ["b.png"], ["c.png"]] 1 :=
  next_replicate_length_identity (fun _ => (some 0 : Option Nat))
    (ImageViewer.mk [["a.png"], ["b.png"], ["c.png"]] 1) (by decide) (by decide)

/-- C6: on every valid state over a non-empty image set, the `"previous"`
transition of `load_image` is the exact inverse of the `"next"` transition:
either order of the two calls restores the starting state, including at the
0 ↔ N-1 wraparound boundary. -/
theorem previous_next_inverse {Img : Type} (decode : FsPath → Option Img)
    (v : ImageViewer) (h1 : v.images ≠ []) (h2 : v.current_index < v.images.length) :
    (load_image decode (load_image decode v "next").1 "previous").1 = v ∧
    (load_image decode (load_image decode v "previous").1 "next").1 = v := by
  have hlen : 0 < v.images.length := List.length_pos.mpr h1
  rw [load_image_fst_ne decode v "next" h1, load_image_fst_ne decode v "previous" h1]
  rw [load_image_fst_ne decode { v with current_index := nextIndex v "next" } "previous" h1]
  rw [load_image_fst_ne decode { v with current_index := nextIndex v "previous" } "next" h1]
  rw [nextIndex_prev, nextIndex_next, nextIndex_prev, nextIndex_next]
  obtain ⟨imgs, i⟩ := v
  dsimp only at h2 hlen ⊢
  constructor
  · rcases Nat.lt_or_ge (i + 1) imgs.length with hc | hc
    · rw [Nat.mod_eq_of_lt hc, if_neg (by omega : ¬ (i + 1 = 0))]
      congr 1
    · have hc2 : i + 1 = imgs.length := by omega
      rw [hc2, Nat.mod_self, if_pos rfl]
      congr 1
      omega
  · rcases eq_or_ne i 0 with hz | hz
    · rw [hz, if_pos rfl, (by omega : imgs.length - 1 + 1 = imgs.length), Nat.mod_self]
    · rw [if_neg hz, (by omega : i - 1 + 1 = i), Nat.mod_eq_of_lt h2]

theorem previous_next_inverse_witness :
    (load_image (fun _ => (some 0 : Option Nat))
      (load_image (fun _ => (some 0 : Option Nat))
        (ImageViewer.mk [["a.png"], ["b.png"], ["c.png"]] 2) "next").1 "previous").1 =
      ImageViewer.mk [["a.png"], ["b.png"], ["c.png"]] 2 ∧
    (load_image (fun _ => (some 0 : Option Nat))
      (load_image (fun _ => (some 0 : Option Nat))
        (ImageViewer.mk [["a.png"], ["b.png"], ["c.png"]] 2) "previous").1 "next").1 =
      ImageViewer.mk [["a.png"], ["b.png"], ["c.png"]] 2 :=
  previous_next_inverse (fun _ => (some 0 : Option Nat))
    (ImageViewer.mk [["a.png"], ["b.png"], ["c.png"]] 2) (by decide) (by decide)

/-- ASCII-lowercase a string (`Char.toLower` lowers exactly `A`-`Z`). -/
def toLowerAscii (s : String) : String := ⟨s.data.map Char.toLower⟩

/-- Spec-side scanner predicate, written from the spec's words: the entry
has an extension that case-insensitively matches one of png, jpg, jpeg. -/
def specIsImage (p : FsPath) : Bool :=
  match pathExtension p with
  | some e =>
      decide (toLowerAscii e = "png" ∨ toLowerAscii e = "jpg" ∨ toLowerAscii e = "jpeg")
  | none => false

theorem eqIgnoreAsciiCase_eq_decide (a b : String) :
    eqIgnoreAsciiCase a b = decide (toLowerAscii a = toLowerAscii b) := by
  rw [Bool.eq_iff_iff]
  simp [eqIgnoreAsciiCase, toLowerAscii, String.ext_iff]

theorem isImagePath_eq_spec (p : FsPath) : isImagePath p = specIsImage p := by
  unfold isImagePath specIsImage
  cases pathExtension p with
  | none => rfl
  | some e =>
      dsimp only
      rw [eqIgnoreAsciiCase_eq_decide, eqIgnoreAsciiCase_eq_decide,
        eqIgnoreAsciiCase_eq_decide]
      rw [(by rfl : toLowerAscii "png" = "png"), (by rfl : toLowerAscii "jpg" = "jpg"),
        (by rfl : toLowerAscii "jpeg" = "jpeg")]
      rw [Bool.eq_iff_iff]
      simp [Bool.or_eq_true, decide_eq_true_eq, or_assoc]

/-- C7: the scanner keeps exactly the entries whose extension
case-insensitively equals png, jpg or jpeg, in directory-iteration order
(it equals filtering with the spec's predicate), and on the spec's example
directory it selects exactly `a.png`, `c.JPG`, `d.jpeg`. -/
theorem scanImages_spec (entries : List FsPath) :
    scanImages entries = entries.filter specIsImage ∧
    scanImages [["a.png"], ["b.txt"], ["c.JPG"], ["d.jpeg"]] =
      [["a.png"], ["c.JPG"], ["d.jpeg"]] := by
  refine ⟨?_, by decide⟩
  unfold scanImages
  exact List.filter_congr (fun p _ => isImagePath_eq_spec p)

theorem position_eq_some {α : Type} (pr : α → Bool) :
    ∀ (l : List α) (j : Nat), position pr l = some j →
      ∃ a, l.get? j = some a ∧ pr a = true := by
  intro l
  induction l with
  | nil => intro j h; exact absurd h (by simp [position])
  | cons a l ih =>
      intro j h
      rw [position] at h
      by_cases hp : pr a = true
      · rw [if_pos hp] at h
        obtain rfl : 0 = j := Option.some.inj h
        exact ⟨a, rfl, hp⟩
      · rw [if_neg hp] at h
        rcases ho : position pr l with _ | k
        · rw [ho] at h
          exact absurd h (by simp)
        · rw [ho] at h
          obtain rfl : k + 1 = j := Option.some.inj h
          obtain ⟨b, hb, hpb⟩ := ih k ho
          exact ⟨b, by simpa using hb, hpb⟩

theorem position_eq_none {α : Type} (pr : α → Bool) :
    ∀ (l : List α), position pr l = none → ∀ a ∈ l, pr a = false := by
  intro l
  induction l with
  | nil => intro _ a ha; exact absurd ha (List.not_mem_nil a)
  | cons a l ih =>
      intro h b hb
      rw [position] at h
      by_cases hp : pr a = true
      · rw [if_pos hp] at h
        exact absurd h (by simp)
      · rw [if_neg hp] at h
        rcases List.mem_cons.mp hb with rfl | hbl
        · exact Bool.eq_false_iff.mpr hp
        · rcases ho : position pr l with _ | k
          · exact ih ho b hbl
          · rw [ho] at h
            exact absurd h (by simp)

/-- C8: when the argument path is a file (not a directory), `main` builds
the candidate set from the parent directory of that file, and the initial
index is the position of the file in the scanned set — it points at the
file itself when the file occurs in the set, and falls back to `0`
otherwise. -/
theorem scanSetup_file (isDir : FsPath → Bool) (readDir : FsPath → List FsPath)
    (path : FsPath) (h : isDir path = false) :
    (scanSetup isDir readDir path).1 =
      scanImages (readDir ((parent path).getD ["."])) ∧
    (path ∈ (scanSetup isDir readDir path).1 →
      (scanSetup isDir readDir path).1.get? (scanSetup isDir readDir path).2 =
        some path) ∧
    (path ∉ (scanSetup isDir readDir path).1 → (scanSetup isDir readDir path).2 = 0) := by
  unfold scanSetup
  rw [if_neg (by simp [h] : ¬ (isDir path = true))]
  dsimp only
  refine ⟨rfl, ?_, ?_⟩
  · intro hmem
    rcases ho : position (fun p => p == path)
        (scanImages (readDir ((parent path).getD ["."]))) with _ | j
    · have := position_eq_none _ _ ho path hmem
      simp at this
    · obtain ⟨a, ha, hpa⟩ := position_eq_some _ _ j ho
      obtain rfl : a = path := by simpa using hpa
      exact ha
  · intro hmem
    rcases ho : position (fun p => p == path)
        (scanImages (readDir ((parent path).getD ["."]))) with _ | j
    · rfl
    · obtain ⟨a, ha, hpa⟩ := position_eq_some _ _ j ho
      obtain rfl : a = path := by simpa using hpa
      exact absurd (List.get?_mem ha) hmem

theorem scanSetup_file_witness :
    (scanSetup (fun _ => false)
        (fun _ => [["d", "a.jpg"], ["d", "b.jpg"], ["d", "c.jpg"]]) ["d", "b.jpg"]).1 =
      scanImages ((fun _ : FsPath => [["d", "a.jpg"], ["d", "b.jpg"], ["d", "c.jpg"]])
        ((parent ["d", "b.jpg"]).getD ["."])) ∧
    (["d", "b.jpg"] ∈ (scanSetup (fun _ => false)
        (fun _ => [["d", "a.jpg"], ["d", "b.jpg"], ["d", "c.jpg"]]) ["d", "b.jpg"]).1 →
      (scanSetup (fun _ => false)
        (fun _ => [["d", "a.jpg"], ["d", "b.jpg"], ["d", "c.jpg"]]) ["d", "b.jpg"]).1.get?
        (scanSetup (fun _ => false)
          (fun _ => [["d", "a.jpg"], ["d", "b.jpg"], ["d", "c.jpg"]]) ["d", "b.jpg"]).2 =
        some ["d", "b.jpg"]) ∧
    (["d", "b.jpg"] ∉ (scanSetup (fun _ => false)
        (fun _ => [["d", "a.jpg"], ["d", "b.jpg"], ["d", "c.jpg"]]) ["d", "b.jpg"]).1 →
      (scanSetup (fun _ => false)
        (fun _ => [["d", "a.jpg"], ["d", "b.jpg"], ["d", "c.jpg"]]) ["d", "b.jpg"]).2 = 0) :=
  scanSetup_file (fun _ => false)
    (fun _ => [["d", "a.jpg"], ["d", "b.jpg"], ["d", "c.jpg"]]) ["d", "b.jpg"] rfl

/-- C10: `filename` is total — it returns the final component of the entry
at the current index, and the empty string whenever the index is out of
range (in particular on an empty image set) or the entry has no final
component. -/
theorem filename_total (v : ImageViewer) :
    (v.images.get? v.current_index = none → filename v = "") ∧
    (∀ p, v.images.get? v.current_index = some p → fileName p = none →
      filename v = "") ∧
    (∀ p n, v.images.get? v.current_index = some p → fileName p = some n →
      filename v = n) := by
  unfold filename
  refine ⟨?_, ?_, ?_⟩
  · intro h
    rw [h]
    rfl
  · intro p hp hn
    rw [hp]
    show (fileName p).getD "" = ""
    rw [hn]
    rfl
  · intro p n hp hn
    rw [hp]
    show (fileName p).getD "" = n
    rw [hn]
    rfl

theorem filename_total_witness :
    filename (ImageViewer.mk [["d", "a.png"]] 0) = "a.png" ∧
    filename (ImageViewer.mk [["d", "a.png"]] 3) = "" :=
  ⟨(filename_total (ImageViewer.mk [["d", "a.png"]] 0)).2.2 ["d", "a.png"] "a.png" rfl rfl,
    (filename_total (ImageViewer.mk [["d", "a.png"]] 3)).1 rfl⟩
